import Mathlib

/-!
Shallow embedding of the creastat/storage session library: the session data
model, the token estimator, the history truncator, and the two session-store
backends (an in-memory map and a Redis-backed store), together with theorems
about the optimistic-locking update protocol and the truncation algorithm.
Go machine integers are modelled as Int (no claim approaches 64-bit range),
timestamps as abstract Int instants, and a Go slice-bounds panic as none.
-/

/-- Message mirrors the Go struct session.Message: one conversation turn. -/
structure Message where
  role : String
  content : String
  tokenCount : Int
  timestamp : Int
deriving DecidableEq, Repr

/-- SessionData mirrors the Go struct session.SessionData. The open mapping
fields RateLimits and Config hold arbitrary JSON values that the core never
inspects; they are modelled as key/value string pairs, which the modelled
operations treat as an uninterpreted payload. -/
structure SessionData where
  id : String
  createdAt : Int
  updatedAt : Int
  version : Int
  conversationHistory : List Message
  systemPrompt : String
  keyterms : List String
  language : String
  ttsEnabled : Bool
  allowedOrigins : List String
  rateLimits : List (String × String)
  config : List (String × String)
deriving DecidableEq, Repr

/-- EstimateTokens translated from tokens.go: each rune weighs 1 when its code
point is at most 127 and 4 otherwise; the accumulated weight is divided by 4
rounding up, written in the source as (weight + 3) / 4. -/
def EstimateTokens (text : String) : Nat :=
  (text.data.foldl (fun w r => w + (if r.toNat ≤ 127 then 1 else 4)) 0 + 3) / 4

/-- specTokenWeight states the spec's weighting policy directly: count of
low-weight (single-byte) code points plus four times the count of high-weight
code points. -/
def specTokenWeight (text : String) : Nat :=
  (text.data.filter (fun r => decide (r.toNat ≤ 127))).length
    + 4 * (text.data.filter (fun r => !decide (r.toNat ≤ 127))).length

/-- goTailSlice models the Go slice expression history[low:] on a slice whose
capacity equals its length: in range it keeps the elements from index low on,
out of range it panics, modelled as none. -/
def goTailSlice (history : List Message) (low : Int) : Option (List Message) :=
  if 0 ≤ low ∧ low ≤ (history.length : Int) then some (history.drop low.toNat)
  else none

/-- sumTokens models the totalTokens accumulation loop in TruncateHistory. -/
def sumTokens (history : List Message) : Int :=
  history.foldl (fun acc m => acc + m.tokenCount) 0

/-- dropOldestWhileOver models the token-limit loop of TruncateHistory: while
the running total exceeds the limit and messages remain, drop the oldest
message and subtract its token count from the total. -/
def dropOldestWhileOver : List Message → Int → Int → List Message
  | [], _, _ => []
  | m :: rest, total, limit =>
    if total > limit then dropOldestWhileOver rest (total - m.tokenCount) limit
    else m :: rest

/-- TruncateHistory translated from the Go source: empty input is returned as
is; then the message limit is applied through the slice expression
history[len(history)-messageLimit:] (whose out-of-range panic is modelled as
none); then the token-limit loop drops oldest messages while over budget. -/
def TruncateHistory (history : List Message) (tokenLimit messageLimit : Int) :
    Option (List Message) :=
  if history.length = 0 then some history
  else
    match (if (history.length : Int) > messageLimit
           then goTailSlice history ((history.length : Int) - messageLimit)
           else some history) with
    | none => none
    | some afterMsgLimit =>
      some (dropOldestWhileOver afterMsgLimit (sumTokens afterMsgLimit) tokenLimit)

/-- AddMessageToHistory translated from the Go source; the current time is an
explicit parameter. -/
def AddMessageToHistory (history : List Message) (role content : String)
    (now : Int) : List Message :=
  history ++ [{ role := role, content := content,
                tokenCount := (EstimateTokens content : Int), timestamp := now }]

theorem tokenWeight_foldl (l : List Char) (a : Nat) :
    l.foldl (fun w r => w + (if r.toNat ≤ 127 then 1 else 4)) a
      = a + ((l.filter (fun r => decide (r.toNat ≤ 127))).length
          + 4 * (l.filter (fun r => !decide (r.toNat ≤ 127))).length) := by
  induction l generalizing a with
  | nil => simp
  | cons r rest ih =>
    simp only [List.foldl_cons, List.filter_cons]
    by_cases h : r.toNat ≤ 127
    · simp [h, ih]
      omega
    · simp [h, ih]
      omega

theorem goTailSlice_some (history : List Message) (low : Int)
    (h1 : 0 ≤ low) (h2 : low ≤ (history.length : Int)) :
    goTailSlice history low = some (history.drop low.toNat) := by
  unfold goTailSlice
  rw [if_pos ⟨h1, h2⟩]

theorem sumTokens_foldl (history : List Message) (a : Int) :
    history.foldl (fun acc m => acc + m.tokenCount) a = a + sumTokens history := by
  induction history generalizing a with
  | nil => simp [sumTokens]
  | cons m rest ih =>
    simp only [sumTokens, List.foldl_cons] at *
    rw [ih, ih (0 + m.tokenCount)]
    ring

theorem sumTokens_cons (m : Message) (rest : List Message) :
    sumTokens (m :: rest) = m.tokenCount + sumTokens rest := by
  simp only [sumTokens, List.foldl_cons]
  rw [sumTokens_foldl rest (0 + m.tokenCount), sumTokens_foldl rest 0]
  omega

theorem sumTokens_nonneg (history : List Message)
    (h : ∀ m ∈ history, 0 ≤ m.tokenCount) : 0 ≤ sumTokens history := by
  induction history with
  | nil => simp [sumTokens]
  | cons m rest ih =>
    rw [sumTokens_cons]
    have hm := h m (List.mem_cons_self m rest)
    have hr := ih fun x hx => h x (List.mem_cons_of_mem m hx)
    omega

theorem dropOldestWhileOver_suffix (history : List Message) (total limit : Int) :
    (dropOldestWhileOver history total limit).IsSuffix history := by
  induction history generalizing total with
  | nil => exact List.suffix_refl []
  | cons m rest ih =>
    unfold dropOldestWhileOver
    split
    · exact (ih _).trans (List.suffix_cons m rest)
    · exact List.suffix_refl _

theorem dropOldestWhileOver_of_le (history : List Message) (total limit : Int)
    (h : total ≤ limit) : dropOldestWhileOver history total limit = history := by
  cases history with
  | nil => rfl
  | cons m rest =>
    unfold dropOldestWhileOver
    rw [if_neg (by omega)]

theorem dropOldestWhileOver_drain (history : List Message)
    (h : ∀ m ∈ history, 0 < m.tokenCount) :
    dropOldestWhileOver history (sumTokens history) 0 = [] := by
  induction history with
  | nil => rfl
  | cons m rest ih =>
    have hm := h m (List.mem_cons_self m rest)
    have hrest : ∀ x ∈ rest, 0 < x.tokenCount :=
      fun x hx => h x (List.mem_cons_of_mem m hx)
    have hr : 0 ≤ sumTokens rest :=
      sumTokens_nonneg rest fun x hx => le_of_lt (hrest x hx)
    unfold dropOldestWhileOver
    rw [sumTokens_cons, if_pos (by omega)]
    have harg : m.tokenCount + sumTokens rest - m.tokenCount = sumTokens rest := by ring
    rw [harg]
    exact ih hrest

theorem dropOldestWhileOver_budget (history : List Message) (limit : Int) :
    dropOldestWhileOver history (sumTokens history) limit = [] ∨
      sumTokens (dropOldestWhileOver history (sumTokens history) limit) ≤ limit := by
  induction history with
  | nil => exact Or.inl rfl
  | cons m rest ih =>
    by_cases hov : sumTokens (m :: rest) > limit
    · rw [sumTokens_cons] at hov
      unfold dropOldestWhileOver
      rw [sumTokens_cons, if_pos (by omega)]
      have harg : m.tokenCount + sumTokens rest - m.tokenCount = sumTokens rest := by
        ring
      rw [harg]
      exact ih
    · right
      rw [dropOldestWhileOver_of_le _ _ _ (by omega)]
      omega

theorem truncateHistory_of_within (history : List Message)
    (tokenLimit messageLimit : Int)
    (hlen : (history.length : Int) ≤ messageLimit)
    (htok : sumTokens history ≤ tokenLimit) :
    TruncateHistory history tokenLimit messageLimit = some history := by
  unfold TruncateHistory
  by_cases h0 : history.length = 0
  · rw [if_pos h0]
  · rw [if_neg h0, if_neg (by omega)]
    show some (dropOldestWhileOver history (sumTokens history) tokenLimit)
      = some history
    rw [dropOldestWhileOver_of_le _ _ _ htok]

theorem truncateHistory_suffix (history : List Message)
    (tokenLimit messageLimit : Int) (result : List Message)
    (h : TruncateHistory history tokenLimit messageLimit = some result) :
    result.IsSuffix history := by
  unfold TruncateHistory at h
  by_cases h0 : history.length = 0
  · rw [if_pos h0] at h
    cases h
    exact List.suffix_refl _
  · rw [if_neg h0] at h
    by_cases hgt : (history.length : Int) > messageLimit
    · rw [if_pos hgt] at h
      unfold goTailSlice at h
      by_cases hok : 0 ≤ (history.length : Int) - messageLimit ∧
          (history.length : Int) - messageLimit ≤ (history.length : Int)
      · rw [if_pos hok] at h
        have h' : dropOldestWhileOver
            (history.drop ((history.length : Int) - messageLimit).toNat)
            (sumTokens (history.drop ((history.length : Int) - messageLimit).toNat))
            tokenLimit = result := Option.some.inj h
        rw [← h']
        exact (dropOldestWhileOver_suffix _ _ _).trans (List.drop_suffix _ _)
      · rw [if_neg hok] at h
        exact absurd h (by simp)
    · rw [if_neg hgt] at h
      have h' : dropOldestWhileOver history (sumTokens history) tokenLimit
          = result := Option.some.inj h
      rw [← h']
      exact dropOldestWhileOver_suffix _ _ _

theorem truncateHistory_length_le (history : List Message)
    (tokenLimit messageLimit : Int) (result : List Message)
    (h : TruncateHistory history tokenLimit messageLimit = some result) :
    (result.length : Int) ≤ messageLimit ∨ result = [] := by
  unfold TruncateHistory at h
  by_cases h0 : history.length = 0
  · rw [if_pos h0] at h
    cases h
    right
    exact List.length_eq_zero.mp h0
  · rw [if_neg h0] at h
    by_cases hgt : (history.length : Int) > messageLimit
    · rw [if_pos hgt] at h
      unfold goTailSlice at h
      by_cases hok : 0 ≤ (history.length : Int) - messageLimit ∧
          (history.length : Int) - messageLimit ≤ (history.length : Int)
      · rw [if_pos hok] at h
        have h' : dropOldestWhileOver
            (history.drop ((history.length : Int) - messageLimit).toNat)
            (sumTokens (history.drop ((history.length : Int) - messageLimit).toNat))
            tokenLimit = result := Option.some.inj h
        left
        have hsuf := dropOldestWhileOver_suffix
          (history.drop ((history.length : Int) - messageLimit).toNat)
          (sumTokens (history.drop ((history.length : Int) - messageLimit).toNat))
          tokenLimit
        have hle := hsuf.length_le
        rw [h'] at hle
        have hdl := List.length_drop
          ((history.length : Int) - messageLimit).toNat history
        omega
      · rw [if_neg hok] at h
        exact absurd h (by simp)
    · rw [if_neg hgt] at h
      have h' : dropOldestWhileOver history (sumTokens history) tokenLimit
          = result := Option.some.inj h
      left
      have hle := (dropOldestWhileOver_suffix history (sumTokens history)
        tokenLimit).length_le
      rw [h'] at hle
      omega

theorem truncateHistory_tokens_le (history : List Message)
    (tokenLimit messageLimit : Int) (result : List Message)
    (h : TruncateHistory history tokenLimit messageLimit = some result) :
    result = [] ∨ sumTokens result ≤ tokenLimit := by
  unfold TruncateHistory at h
  by_cases h0 : history.length = 0
  · rw [if_pos h0] at h
    cases h
    left
    exact List.length_eq_zero.mp h0
  · rw [if_neg h0] at h
    by_cases hgt : (history.length : Int) > messageLimit
    · rw [if_pos hgt] at h
      unfold goTailSlice at h
      by_cases hok : 0 ≤ (history.length : Int) - messageLimit ∧
          (history.length : Int) - messageLimit ≤ (history.length : Int)
      · rw [if_pos hok] at h
        have h' : dropOldestWhileOver
            (history.drop ((history.length : Int) - messageLimit).toNat)
            (sumTokens (history.drop ((history.length : Int) - messageLimit).toNat))
            tokenLimit = result := Option.some.inj h
        rw [← h']
        exact dropOldestWhileOver_budget _ _
      · rw [if_neg hok] at h
        exact absurd h (by simp)
    · rw [if_neg hgt] at h
      have h' : dropOldestWhileOver history (sumTokens history) tokenLimit
          = result := Option.some.inj h
      rw [← h']
      exact dropOldestWhileOver_budget _ _

/-- msgA is a sample conversation turn with a positive token count. -/
def msgA : Message :=
  { role := "user", content := "hi", tokenCount := 1, timestamp := 0 }

/-- zeroMsg is a sample conversation turn with TokenCount 0, as produced by
AddMessageToHistory on empty content (EstimateTokens of the empty string is
0). -/
def zeroMsg : Message :=
  { role := "user", content := "", tokenCount := 0, timestamp := 0 }

/-- C7: EstimateTokens returns the weight sum (1 per single-byte code point, 4
per any other code point) divided by 4 rounding up, computed as the source's
(sum + 3) / 4; in particular the string test yields 1, the three-character CJK
string yields 3, and the empty string yields 0. -/
theorem estimateTokens_matches_spec :
    (∀ text : String, EstimateTokens text = (specTokenWeight text + 3) / 4) ∧
    EstimateTokens "test" = 1 ∧ EstimateTokens "日本語" = 3 ∧
    EstimateTokens "" = 0 := by
  refine ⟨fun text => ?_, by decide, by decide, rfl⟩
  unfold EstimateTokens specTokenWeight
  rw [tokenWeight_foldl, Nat.zero_add]

/-- C6 counterexample: a negative messageLimit with a non-empty history makes
the slice lower bound len(history)-messageLimit exceed the length, which in Go
is a slice-bounds panic (modelled as none), so TruncateHistory does not
tolerate every messageLimit ≤ 0. -/
theorem truncateHistory_neg_messageLimit_fault :
    TruncateHistory [msgA] 0 (-1) = none := by decide

/-- C6 amended: for every history, every tokenLimit (including non-positive
values) and every messageLimit that is at least 0, TruncateHistory returns a
result without failing; only a negative messageLimit combined with a non-empty
history faults on the slice bound. -/
theorem truncateHistory_total_of_nonneg_messageLimit
    (history : List Message) (tokenLimit messageLimit : Int)
    (h : 0 ≤ messageLimit) :
    (TruncateHistory history tokenLimit messageLimit).isSome = true := by
  unfold TruncateHistory
  by_cases h0 : history.length = 0
  · rw [if_pos h0]
    rfl
  · rw [if_neg h0]
    by_cases hgt : (history.length : Int) > messageLimit
    · rw [if_pos hgt,
        goTailSlice_some history ((history.length : Int) - messageLimit)
          (by omega) (by omega)]
      rfl
    · rw [if_neg hgt]
      rfl

/-- C6 amended witness: a concrete run with messageLimit 0 and a negative
token limit succeeds. -/
theorem truncateHistory_total_witness :
    (TruncateHistory [msgA] (-5) 0).isSome = true :=
  truncateHistory_total_of_nonneg_messageLimit [msgA] (-5) 0 (by decide)

/-- C8 counterexample: with token budget 0 a message whose TokenCount is 0
survives, so a token budget of 0 does not drain every non-empty history to
empty. -/
theorem truncateHistory_zero_token_budget_not_draining :
    TruncateHistory [zeroMsg] 0 5 = some [zeroMsg] ∧
      [zeroMsg] ≠ ([] : List Message) := by
  exact ⟨by decide, by decide⟩

/-- C8 amended: a message-count budget of 0 drains every non-empty history to
empty (for any token limit); a token budget of 0 drains the history to empty
provided every message has a positive TokenCount (and the message limit is
non-negative so the slice does not fault) — a message with TokenCount 0 fits
in a 0 token budget and survives; the empty input is returned unchanged. -/
theorem truncateHistory_zero_budget_drains :
    (∀ (history : List Message) (tokenLimit : Int), history ≠ [] →
        TruncateHistory history tokenLimit 0 = some []) ∧
    (∀ (history : List Message) (messageLimit : Int), 0 ≤ messageLimit →
        (∀ m ∈ history, 0 < m.tokenCount) →
        TruncateHistory history 0 messageLimit = some []) ∧
    (∀ tokenLimit messageLimit : Int,
        TruncateHistory [] tokenLimit messageLimit = some []) := by
  refine ⟨fun history tokenLimit hne => ?_,
    fun history messageLimit hml hpos => ?_, fun tokenLimit messageLimit => rfl⟩
  · have h0 : history.length ≠ 0 := by
      simpa using List.length_pos.mpr hne |>.ne'
    unfold TruncateHistory
    rw [if_neg h0, if_pos (by omega),
      goTailSlice_some history ((history.length : Int) - 0) (by omega)
        (by omega)]
    have hdrop : history.drop ((history.length : Int) - 0).toNat = [] := by
      have : ((history.length : Int) - 0).toNat = history.length := by omega
      rw [this, List.drop_length]
    rw [hdrop]
    rfl
  · by_cases h0 : history.length = 0
    · unfold TruncateHistory
      rw [if_pos h0]
      rw [List.length_eq_zero.mp h0]
    · unfold TruncateHistory
      rw [if_neg h0]
      by_cases hgt : (history.length : Int) > messageLimit
      · rw [if_pos hgt,
          goTailSlice_some history ((history.length : Int) - messageLimit)
            (by omega) (by omega)]
        show some (dropOldestWhileOver _ (sumTokens _) 0) = some []
        rw [dropOldestWhileOver_drain _
          (fun m hm => hpos m (List.mem_of_mem_drop hm))]
      · rw [if_neg hgt]
        show some (dropOldestWhileOver history (sumTokens history) 0) = some []
        rw [dropOldestWhileOver_drain history hpos]

/-- C8 amended witness: concrete runs draining a one-message history under a
message budget of 0 and under a token budget of 0. -/
theorem truncateHistory_zero_budget_witness :
    TruncateHistory [msgA] 7 0 = some [] ∧
      TruncateHistory [msgA] 0 9 = some [] :=
  ⟨truncateHistory_zero_budget_drains.1 [msgA] 7 (by decide),
   truncateHistory_zero_budget_drains.2.1 [msgA] 9 (by decide) (by decide)⟩

/-- C9: a history already within both budgets (length at most messageLimit and
token sum at most tokenLimit) is returned unchanged; every returned history is
a suffix of the input, so messages are removed only from the front and the
oldest-first order of the survivors is preserved; and truncation is idempotent
on every non-faulting input. -/
theorem truncateHistory_within_budget_suffix_idempotent :
    (∀ (history : List Message) (tokenLimit messageLimit : Int),
        (history.length : Int) ≤ messageLimit →
        sumTokens history ≤ tokenLimit →
        TruncateHistory history tokenLimit messageLimit = some history) ∧
    (∀ (history : List Message) (tokenLimit messageLimit : Int)
        (result : List Message),
        TruncateHistory history tokenLimit messageLimit = some result →
        result.IsSuffix history) ∧
    (∀ (history : List Message) (tokenLimit messageLimit : Int)
        (result : List Message),
        TruncateHistory history tokenLimit messageLimit = some result →
        TruncateHistory result tokenLimit messageLimit = some result) := by
  refine ⟨truncateHistory_of_within, truncateHistory_suffix,
    fun history tokenLimit messageLimit result h => ?_⟩
  by_cases hres : result = []
  · rw [hres]
    rfl
  · have h1 := truncateHistory_length_le history tokenLimit messageLimit result h
    have h2 := truncateHistory_tokens_le history tokenLimit messageLimit result h
    exact truncateHistory_of_within result tokenLimit messageLimit
      (h1.resolve_right hres) ((h2.resolve_left hres))

/-- C9 witness: concrete instances of the three conjuncts — an in-budget
history returned unchanged, a concrete suffix conclusion, and a concrete
idempotence conclusion. -/
theorem truncateHistory_c9_witness :
    TruncateHistory [msgA] 10 3 = some [msgA] ∧
      List.IsSuffix [zeroMsg] [msgA, zeroMsg] ∧
      TruncateHistory [zeroMsg] 1 1 = some [zeroMsg] :=
  ⟨truncateHistory_within_budget_suffix_idempotent.1 [msgA] 10 3
      (by decide) (by decide),
   truncateHistory_within_budget_suffix_idempotent.2.1 [msgA, zeroMsg] 1 1
      [zeroMsg] (by decide),
   truncateHistory_within_budget_suffix_idempotent.2.2 [msgA, zeroMsg] 1 1
      [zeroMsg] (by decide)⟩

/-- aget models a Go map lookup m[k] (string-keyed). -/
def aget {α : Type} : List (String × α) → String → Option α
  | [], _ => none
  | (k2, v) :: rest, k => if k2 = k then some v else aget rest k

/-- aset models a Go map assignment m[k] = v: it replaces the binding when the
key is present and appends it otherwise. -/
def aset {α : Type} : List (String × α) → String → α → List (String × α)
  | [], k, v => [(k, v)]
  | (k2, v2) :: rest, k, v =>
    if k2 = k then (k, v) :: rest else (k2, v2) :: aset rest k v

/-- adel models the Go builtin delete(m, k). -/
def adel {α : Type} : List (String × α) → String → List (String × α)
  | [], _ => []
  | (k2, v2) :: rest, k =>
    if k2 = k then adel rest k else (k2, v2) :: adel rest k

theorem aget_aset_self {α : Type} (m : List (String × α)) (k : String) (v : α) :
    aget (aset m k v) k = some v := by
  induction m with
  | nil => simp [aget, aset]
  | cons p rest ih =>
    obtain ⟨k2, v2⟩ := p
    by_cases h : k2 = k
    · simp [aget, aset, h]
    · simp [aget, aset, h, ih]

theorem aget_aset_ne {α : Type} (m : List (String × α)) (k k2 : String) (v : α)
    (h : k2 ≠ k) : aget (aset m k v) k2 = aget m k2 := by
  induction m with
  | nil =>
    have hne : ¬ k = k2 := fun he => h he.symm
    simp [aget, aset, hne]
  | cons p rest ih =>
    obtain ⟨k3, v3⟩ := p
    by_cases h3 : k3 = k
    · subst h3
      have hne : ¬ k3 = k2 := fun he => h he.symm
      simp [aget, aset, hne]
    · simp only [aset, if_neg h3, aget]
      by_cases h32 : k3 = k2
      · simp [h32]
      · simp [h32, ih]

theorem aget_adel_self {α : Type} (m : List (String × α)) (k : String) :
    aget (adel m k) k = none := by
  induction m with
  | nil => rfl
  | cons p rest ih =>
    obtain ⟨k2, v2⟩ := p
    by_cases h : k2 = k
    · simp [adel, h, ih]
    · simp [adel, aget, h, ih]

theorem aget_adel_ne {α : Type} (m : List (String × α)) (k k2 : String)
    (h : k2 ≠ k) : aget (adel m k) k2 = aget m k2 := by
  induction m with
  | nil => rfl
  | cons p rest ih =>
    obtain ⟨k3, v3⟩ := p
    by_cases h3 : k3 = k
    · subst h3
      have hne : ¬ k3 = k2 := fun he => h he.symm
      simp [adel, aget, hne, ih]
    · simp only [adel, if_neg h3, aget]
      by_cases h32 : k3 = k2
      · simp [h32]
      · simp [h32, ih]

/-- StoreError models the error values the store operations can return: the
sentinel errors of errors.go together with the Redis backend's transport and
serialization failures (decode failure, marshal failure, a rejected WATCH
transaction, a relayed context cancellation). -/
inductive StoreError where
  | notFound
  | versionConflict
  | decodeFailure
  | marshalFailure
  | txFailed
  | ctxCanceled
deriving DecidableEq, Repr

instance {e a : Type} [DecidableEq e] [DecidableEq a] :
    DecidableEq (Except e a) := fun x y =>
  match x, y with
  | Except.error e1, Except.error e2 =>
    if h : e1 = e2 then Decidable.isTrue (by rw [h])
    else Decidable.isFalse (by intro hc; cases hc; exact h rfl)
  | Except.error _, Except.ok _ => Decidable.isFalse (by intro hc; cases hc)
  | Except.ok _, Except.error _ => Decidable.isFalse (by intro hc; cases hc)
  | Except.ok x1, Except.ok y1 =>
    if h : x1 = y1 then Decidable.isTrue (by rw [h])
    else Decidable.isFalse (by intro hc; cases hc; exact h rfl)

/-- MemState is the in-memory store's guarded map from session ID to record. -/
abbrev MemState := List (String × SessionData)

/-- inMemoryStore.Create translated from factory.go: stamps the caller's data
(CreatedAt and UpdatedAt to now, Version to 1), stores it under its ID, and
always succeeds. The context parameter is accepted but never inspected,
exactly as in the Go code. Result triple: (error result, store state after
the call, caller's data after the call). -/
def inMemoryStore.Create (ctxDone : Bool) (st : MemState) (data : SessionData)
    (now : Int) : Except StoreError Unit × MemState × SessionData :=
  let d := { data with createdAt := now, updatedAt := now, version := 1 }
  (Except.ok (), aset st data.id d, d)

/-- inMemoryStore.Get translated from factory.go: an absent ID yields
(none, no error); the context parameter is never inspected. -/
def inMemoryStore.Get (ctxDone : Bool) (st : MemState) (id : String) :
    Except StoreError (Option SessionData) × MemState :=
  (Except.ok (aget st id), st)

/-- inMemoryStore.Update translated from factory.go: NotFound when the ID is
absent, VersionConflict when the stored Version differs from data.Version,
otherwise it increments the caller's Version, stamps UpdatedAt and stores the
record; the context parameter is never inspected. -/
def inMemoryStore.Update (ctxDone : Bool) (st : MemState) (data : SessionData)
    (now : Int) : Except StoreError Unit × MemState × SessionData :=
  match aget st data.id with
  | none => (Except.error StoreError.notFound, st, data)
  | some stored =>
    if stored.version ≠ data.version then
      (Except.error StoreError.versionConflict, st, data)
    else
      let d := { data with version := data.version + 1, updatedAt := now }
      (Except.ok (), aset st data.id d, d)

/-- inMemoryStore.Delete translated from factory.go: unconditional; the
context parameter is never inspected. -/
def inMemoryStore.Delete (ctxDone : Bool) (st : MemState) (id : String) :
    Except StoreError Unit × MemState :=
  (Except.ok (), adel st id)

/-- RedisVal models the serialized value at a Redis key: either the JSON
encoding of a SessionData (json.Marshal modelled as the injective constructor
enc, since the wire format round-trips the record) or stored bytes that fail
to decode (garbage). -/
inductive RedisVal where
  | enc (d : SessionData)
  | garbage
deriving DecidableEq, Repr

/-- RedisState is the key/value content of the Redis database. TTLs are not
modelled: no claim in scope concerns expiration, and the Expire refresh on
Get has no effect on the key/value content. -/
abbrev RedisState := List (String × RedisVal)

/-- sessionKey models the key derivation sessionKeyPrefix + ID. -/
def sessionKey (id : String) : String := "session:" ++ id

/-- applyConcurrent applies an optional concurrent writer's SET on the watched
key, modelling a modification that lands between this Update's read and its
EXEC; it belongs to the other writer's call, not to this one. -/
def applyConcurrent (st : RedisState) (key : String) :
    Option RedisVal → RedisState
  | none => st
  | some w => aset st key w

/-- redisStore.Create translated from factory.go: stamps the caller's data
(Version 1, both timestamps to now), marshals it, then SETs it under
"session:"+ID. Whether json.Marshal fails is determined by the unmodeled open
map fields and is passed as the marshalFails flag. The context is relayed to
the client's Set call; that the transport returns a cancellation error when
the caller's context is already cancelled is modelled from the spec (the
go-redis client is an external collaborator). -/
def redisStore.Create (ctxDone : Bool) (marshalFails : Bool) (st : RedisState)
    (data : SessionData) (now : Int) :
    Except StoreError Unit × RedisState × SessionData :=
  let d := { data with createdAt := now, updatedAt := now, version := 1 }
  if marshalFails then (Except.error StoreError.marshalFailure, st, d)
  else if ctxDone then (Except.error StoreError.ctxCanceled, st, d)
  else (Except.ok (), aset st (sessionKey data.id) (RedisVal.enc d), d)

/-- redisStore.Get translated from factory.go: redis.Nil becomes (none, no
error), a decode failure is a hard error, and the TTL refresh (which has no
key/value effect) is dropped. The context is relayed to the client's Get
call; its cancellation behaviour is modelled from the spec as in Create. -/
def redisStore.Get (ctxDone : Bool) (st : RedisState) (id : String) :
    Except StoreError (Option SessionData) × RedisState :=
  if ctxDone then (Except.error StoreError.ctxCanceled, st)
  else
    match aget st (sessionKey id) with
    | none => (Except.ok none, st)
    | some (RedisVal.enc d) => (Except.ok (some d), st)
    | some RedisVal.garbage => (Except.error StoreError.decodeFailure, st)

/-- redisStore.Update translated from factory.go: inside a WATCH on the key it
reads and decodes the stored value (absent is NotFound, undecodable a hard
error), compares Versions (mismatch is VersionConflict), then increments the
caller's Version and stamps UpdatedAt, marshals, and SETs inside the
transaction. A concurrent write to the watched key between the read and the
EXEC makes the transaction fail (the concurrent writer's value stands); the
WATCH acquisition relays the context, modelled from the spec as in Create. -/
def redisStore.Update (ctxDone : Bool) (marshalFails : Bool)
    (concurrent : Option RedisVal) (st : RedisState) (data : SessionData)
    (now : Int) : Except StoreError Unit × RedisState × SessionData :=
  if ctxDone then (Except.error StoreError.ctxCanceled, st, data)
  else
    match aget st (sessionKey data.id) with
    | none =>
      (Except.error StoreError.notFound,
        applyConcurrent st (sessionKey data.id) concurrent, data)
    | some RedisVal.garbage =>
      (Except.error StoreError.decodeFailure,
        applyConcurrent st (sessionKey data.id) concurrent, data)
    | some (RedisVal.enc stored) =>
      if stored.version ≠ data.version then
        (Except.error StoreError.versionConflict,
          applyConcurrent st (sessionKey data.id) concurrent, data)
      else
        let d := { data with version := data.version + 1, updatedAt := now }
        if marshalFails then
          (Except.error StoreError.marshalFailure,
            applyConcurrent st (sessionKey data.id) concurrent, d)
        else
          match concurrent with
          | some w =>
            (Except.error StoreError.txFailed, aset st (sessionKey data.id) w, d)
          | none =>
            (Except.ok (), aset st (sessionKey data.id) (RedisVal.enc d), d)

/-- redisStore.Delete translated from factory.go: an unconditional DEL; the
context is relayed to the client's Del call, modelled from the spec as in
Create. -/
def redisStore.Delete (ctxDone : Bool) (st : RedisState) (id : String) :
    Except StoreError Unit × RedisState :=
  if ctxDone then (Except.error StoreError.ctxCanceled, st)
  else (Except.ok (), adel st (sessionKey id))

/-- seqMemUpdates performs n sequential read-modify-write rounds against the
in-memory store: each round re-fetches the latest record via Get and submits
it to Update; none signals a failed round. -/
def seqMemUpdates : Nat → MemState → String → Option MemState
  | 0, st, _ => some st
  | n + 1, st, id =>
    match (inMemoryStore.Get false st id).1 with
    | Except.ok (some d) =>
      match inMemoryStore.Update false st d (n : Int) with
      | (Except.ok _, st2, _) => seqMemUpdates n st2 id
      | (Except.error _, _, _) => none
    | _ => none

/-- seqRedisUpdates performs n sequential read-modify-write rounds against the
Redis store under a live context, no marshal failure and no concurrent
writer. -/
def seqRedisUpdates : Nat → RedisState → String → Option RedisState
  | 0, st, _ => some st
  | n + 1, st, id =>
    match (redisStore.Get false st id).1 with
    | Except.ok (some d) =>
      match redisStore.Update false false none st d (n : Int) with
      | (Except.ok _, st2, _) => seqRedisUpdates n st2 id
      | (Except.error _, _, _) => none
    | _ => none

/-- StoreOp is one invocation of a mutating store operation. -/
inductive StoreOp where
  | create (d : SessionData)
  | update (d : SessionData)
  | delete (id : String)
deriving DecidableEq, Repr

/-- applyMemOp runs one operation (paired with its time) against the
in-memory store, keeping the resulting store state. -/
def applyMemOp (st : MemState) : StoreOp × Int → MemState
  | (StoreOp.create d, now) => (inMemoryStore.Create false st d now).2.1
  | (StoreOp.update d, now) => (inMemoryStore.Update false st d now).2.1
  | (StoreOp.delete id, _) => (inMemoryStore.Delete false st id).2

/-- runMemOps runs a sequence of timed operations left to right. -/
def runMemOps : MemState → List (StoreOp × Int) → MemState
  | st, [] => st
  | st, p :: rest => runMemOps (applyMemOp st p) rest

/-- createsId holds when the operation is a Create carrying the given ID. -/
def createsId (id : String) : StoreOp → Prop
  | StoreOp.create d => d.id = id
  | StoreOp.update _ => False
  | StoreOp.delete _ => False

instance (id : String) (op : StoreOp) : Decidable (createsId id op) :=
  match op with
  | StoreOp.create d => (inferInstance : Decidable (d.id = id))
  | StoreOp.update _ => (inferInstance : Decidable False)
  | StoreOp.delete _ => (inferInstance : Decidable False)

theorem memCreate_eq (c : Bool) (st : MemState) (d : SessionData) (now : Int) :
    inMemoryStore.Create c st d now
      = (Except.ok (),
        aset st d.id
          { d with createdAt := now, updatedAt := now, version := 1 },
        { d with createdAt := now, updatedAt := now, version := 1 }) := rfl

theorem memUpdate_eq_notFound (c : Bool) (st : MemState) (d : SessionData)
    (now : Int) (hst : aget st d.id = none) :
    inMemoryStore.Update c st d now
      = (Except.error StoreError.notFound, st, d) := by
  unfold inMemoryStore.Update
  rw [hst]

theorem memUpdate_eq_conflict (c : Bool) (st : MemState) (d : SessionData)
    (now : Int) (stored : SessionData) (hst : aget st d.id = some stored)
    (hv : stored.version ≠ d.version) :
    inMemoryStore.Update c st d now
      = (Except.error StoreError.versionConflict, st, d) := by
  unfold inMemoryStore.Update
  rw [hst]
  simp [hv]

theorem memUpdate_eq_of_match (c : Bool) (st : MemState) (d : SessionData)
    (now : Int) (stored : SessionData) (hst : aget st d.id = some stored)
    (hv : stored.version = d.version) :
    inMemoryStore.Update c st d now
      = (Except.ok (),
        aset st d.id { d with version := d.version + 1, updatedAt := now },
        { d with version := d.version + 1, updatedAt := now }) := by
  unfold inMemoryStore.Update
  rw [hst]
  simp [hv]

theorem memUpdate_ok (c : Bool) (st : MemState) (d : SessionData) (now : Int)
    (h : (inMemoryStore.Update c st d now).1 = Except.ok ()) :
    ∃ stored, aget st d.id = some stored ∧ stored.version = d.version ∧
      (inMemoryStore.Update c st d now).2.1
        = aset st d.id { d with version := d.version + 1, updatedAt := now } := by
  cases hst : aget st d.id with
  | none =>
    rw [memUpdate_eq_notFound c st d now hst] at h
    simp at h
  | some stored =>
    by_cases hv : stored.version ≠ d.version
    · rw [memUpdate_eq_conflict c st d now stored hst hv] at h
      simp at h
    · have hv2 : stored.version = d.version := by omega
      refine ⟨stored, rfl, hv2, ?_⟩
      rw [memUpdate_eq_of_match c st d now stored hst hv2]

theorem memUpdate_state (c : Bool) (st : MemState) (d : SessionData)
    (now : Int) :
    (inMemoryStore.Update c st d now).2.1 = st ∨
      (∃ stored, aget st d.id = some stored ∧ stored.version = d.version ∧
        (inMemoryStore.Update c st d now).2.1
          = aset st d.id
              { d with version := d.version + 1, updatedAt := now }) := by
  cases hst : aget st d.id with
  | none =>
    left
    rw [memUpdate_eq_notFound c st d now hst]
  | some stored =>
    by_cases hv : stored.version ≠ d.version
    · left
      rw [memUpdate_eq_conflict c st d now stored hst hv]
    · have hv2 : stored.version = d.version := by omega
      right
      refine ⟨stored, rfl, hv2, ?_⟩
      rw [memUpdate_eq_of_match c st d now stored hst hv2]

theorem applyMemOp_none (st : MemState) (p : StoreOp × Int) (id : String)
    (hnc : ¬ createsId id p.1) (h : aget st id = none) :
    aget (applyMemOp st p) id = none := by
  obtain ⟨op, now⟩ := p
  cases op with
  | create d =>
    have hne : ¬ d.id = id := hnc
    simp only [applyMemOp, memCreate_eq]
    rw [aget_aset_ne _ _ _ _ (fun he => hne he.symm)]
    exact h
  | update d =>
    simp only [applyMemOp]
    rcases memUpdate_state false st d now with hst | ⟨stored, hget, _, hst⟩
    · rw [hst]
      exact h
    · rw [hst]
      by_cases hd : d.id = id
      · rw [hd] at hget
        rw [hget] at h
        cases h
      · rw [aget_aset_ne _ _ _ _ (fun he => hd he.symm)]
        exact h
  | delete did =>
    simp only [applyMemOp, inMemoryStore.Delete]
    by_cases hd : did = id
    · rw [hd]
      exact aget_adel_self st id
    · rw [aget_adel_ne _ _ _ (fun he => hd he.symm)]
      exact h

theorem applyMemOp_version_mono (st : MemState) (p : StoreOp × Int)
    (id : String) (s s2 : SessionData) (hnc : ¬ createsId id p.1)
    (h : aget st id = some s) (h2 : aget (applyMemOp st p) id = some s2) :
    s.version ≤ s2.version := by
  obtain ⟨op, now⟩ := p
  cases op with
  | create d =>
    have hne : ¬ d.id = id := hnc
    simp only [applyMemOp, memCreate_eq] at h2
    rw [aget_aset_ne _ _ _ _ (fun he => hne he.symm), h] at h2
    cases h2
    exact le_refl _
  | update d =>
    simp only [applyMemOp] at h2
    rcases memUpdate_state false st d now with hst | ⟨stored, hget, hv, hst⟩
    · rw [hst, h] at h2
      cases h2
      exact le_refl _
    · rw [hst] at h2
      by_cases hd : d.id = id
      · rw [hd] at hget
        rw [hget] at h
        cases h
        rw [hd, aget_aset_self] at h2
        cases h2
        simp only []
        omega
      · rw [aget_aset_ne _ _ _ _ (fun he => hd he.symm), h] at h2
        cases h2
        exact le_refl _
  | delete did =>
    simp only [applyMemOp, inMemoryStore.Delete] at h2
    by_cases hd : did = id
    · rw [hd, aget_adel_self] at h2
      cases h2
    · rw [aget_adel_ne _ _ _ (fun he => hd he.symm), h] at h2
      cases h2
      exact le_refl _

theorem runMemOps_none (ops : List (StoreOp × Int)) :
    ∀ (st : MemState) (id : String),
      (∀ p ∈ ops, ¬ createsId id p.1) → aget st id = none →
      aget (runMemOps st ops) id = none := by
  induction ops with
  | nil => intro st id _ h; exact h
  | cons p rest ih =>
    intro st id hnc h
    exact ih _ _ (fun q hq => hnc q (List.mem_cons_of_mem _ hq))
      (applyMemOp_none st p id (hnc p (List.mem_cons_self _ _)) h)

theorem runMemOps_mono (ops : List (StoreOp × Int)) :
    ∀ (st : MemState) (id : String) (s s2 : SessionData),
      (∀ p ∈ ops, ¬ createsId id p.1) → aget st id = some s →
      aget (runMemOps st ops) id = some s2 → s.version ≤ s2.version := by
  induction ops with
  | nil =>
    intro st id s s2 _ h h2
    simp only [runMemOps] at h2
    rw [h] at h2
    cases h2
    exact le_refl _
  | cons p rest ih =>
    intro st id s s2 hnc h h2
    simp only [runMemOps] at h2
    have hncp : ¬ createsId id p.1 := hnc p (List.mem_cons_self _ _)
    have hncr : ∀ q ∈ rest, ¬ createsId id q.1 :=
      fun q hq => hnc q (List.mem_cons_of_mem _ hq)
    cases hmid : aget (applyMemOp st p) id with
    | none =>
      have habs := runMemOps_none rest (applyMemOp st p) id hncr hmid
      rw [habs] at h2
      cases h2
    | some smid =>
      have hstep := applyMemOp_version_mono st p id s smid hncp h hmid
      have htail := ih (applyMemOp st p) id smid s2 hncr hmid h2
      omega

theorem memGet_eq (c : Bool) (st : MemState) (id : String) :
    inMemoryStore.Get c st id = (Except.ok (aget st id), st) := rfl

theorem seqMemUpdates_version (n : Nat) :
    ∀ (st : MemState) (id : String) (s : SessionData),
      aget st id = some s → s.id = id →
      ∃ st2 s2, seqMemUpdates n st id = some st2 ∧ aget st2 id = some s2 ∧
        s2.id = id ∧ s2.version = s.version + n := by
  induction n with
  | zero =>
    intro st id s hs hid
    exact ⟨st, s, rfl, hs, hid, by simp⟩
  | succ n ih =>
    intro st id s hs hid
    have hs2 : aget st s.id = some s := by rw [hid]; exact hs
    have hupd := memUpdate_eq_of_match false st s (n : Int) s hs2 rfl
    have hkey : aget
        (aset st s.id { s with version := s.version + 1, updatedAt := (n : Int) })
        id = some { s with version := s.version + 1, updatedAt := (n : Int) } := by
      rw [hid]
      exact aget_aset_self _ _ _
    obtain ⟨st2, s2, h1, h2, h3, h4⟩ := ih
      (aset st s.id { s with version := s.version + 1, updatedAt := (n : Int) })
      id { s with version := s.version + 1, updatedAt := (n : Int) } hkey hid
    refine ⟨st2, s2, ?_, h2, h3, by rw [h4]; push_cast; omega⟩
    show seqMemUpdates (n + 1) st id = some st2
    simp only [seqMemUpdates, memGet_eq, hs, hupd]
    exact h1

theorem redisGet_eq_enc (st : RedisState) (id : String) (d : SessionData)
    (hst : aget st (sessionKey id) = some (RedisVal.enc d)) :
    redisStore.Get false st id = (Except.ok (some d), st) := by
  unfold redisStore.Get
  rw [hst]
  simp

theorem redisUpdate_eq_notFound (mf : Bool) (cw : Option RedisVal)
    (st : RedisState) (d : SessionData) (now : Int)
    (hst : aget st (sessionKey d.id) = none) :
    redisStore.Update false mf cw st d now
      = (Except.error StoreError.notFound,
        applyConcurrent st (sessionKey d.id) cw, d) := by
  unfold redisStore.Update
  rw [hst]
  simp

theorem redisUpdate_eq_conflict (mf : Bool) (cw : Option RedisVal)
    (st : RedisState) (d : SessionData) (now : Int) (stored : SessionData)
    (hst : aget st (sessionKey d.id) = some (RedisVal.enc stored))
    (hv : stored.version ≠ d.version) :
    redisStore.Update false mf cw st d now
      = (Except.error StoreError.versionConflict,
        applyConcurrent st (sessionKey d.id) cw, d) := by
  unfold redisStore.Update
  rw [hst]
  simp [hv]

theorem redisUpdate_eq_marshalFailure (cw : Option RedisVal) (st : RedisState)
    (d : SessionData) (now : Int) (stored : SessionData)
    (hst : aget st (sessionKey d.id) = some (RedisVal.enc stored))
    (hv : stored.version = d.version) :
    redisStore.Update false true cw st d now
      = (Except.error StoreError.marshalFailure,
        applyConcurrent st (sessionKey d.id) cw,
        { d with version := d.version + 1, updatedAt := now }) := by
  unfold redisStore.Update
  rw [hst]
  simp [hv]

theorem redisUpdate_eq_txFailed (w : RedisVal) (st : RedisState)
    (d : SessionData) (now : Int) (stored : SessionData)
    (hst : aget st (sessionKey d.id) = some (RedisVal.enc stored))
    (hv : stored.version = d.version) :
    redisStore.Update false false (some w) st d now
      = (Except.error StoreError.txFailed, aset st (sessionKey d.id) w,
        { d with version := d.version + 1, updatedAt := now }) := by
  unfold redisStore.Update
  rw [hst]
  simp [hv]

theorem redisUpdate_eq_ok (st : RedisState) (d : SessionData) (now : Int)
    (stored : SessionData)
    (hst : aget st (sessionKey d.id) = some (RedisVal.enc stored))
    (hv : stored.version = d.version) :
    redisStore.Update false false none st d now
      = (Except.ok (),
        aset st (sessionKey d.id)
          (RedisVal.enc { d with version := d.version + 1, updatedAt := now }),
        { d with version := d.version + 1, updatedAt := now }) := by
  unfold redisStore.Update
  rw [hst]
  simp [hv]

theorem seqRedisUpdates_version (n : Nat) :
    ∀ (st : RedisState) (id : String) (s : SessionData),
      aget st (sessionKey id) = some (RedisVal.enc s) → s.id = id →
      ∃ st2 s2, seqRedisUpdates n st id = some st2 ∧
        aget st2 (sessionKey id) = some (RedisVal.enc s2) ∧
        s2.id = id ∧ s2.version = s.version + n := by
  induction n with
  | zero =>
    intro st id s hs hid
    exact ⟨st, s, rfl, hs, hid, by simp⟩
  | succ n ih =>
    intro st id s hs hid
    have hget := redisGet_eq_enc st id s hs
    have hs2 : aget st (sessionKey s.id) = some (RedisVal.enc s) := by
      rw [hid]
      exact hs
    have hupd := redisUpdate_eq_ok st s (n : Int) s hs2 rfl
    have hkey : aget
        (aset st (sessionKey s.id)
          (RedisVal.enc { s with version := s.version + 1, updatedAt := (n : Int) }))
        (sessionKey id)
        = some (RedisVal.enc
            { s with version := s.version + 1, updatedAt := (n : Int) }) := by
      rw [hid]
      exact aget_aset_self _ _ _
    obtain ⟨st2, s2, h1, h2, h3, h4⟩ := ih
      (aset st (sessionKey s.id)
        (RedisVal.enc { s with version := s.version + 1, updatedAt := (n : Int) }))
      id { s with version := s.version + 1, updatedAt := (n : Int) } hkey hid
    refine ⟨st2, s2, ?_, h2, h3, by rw [h4]; push_cast; omega⟩
    show seqRedisUpdates (n + 1) st id = some st2
    simp only [seqRedisUpdates, hget, hupd]
    exact h1

theorem redisCreate_eq_ok (st : RedisState) (d : SessionData) (now : Int) :
    redisStore.Create false false st d now
      = (Except.ok (),
        aset st (sessionKey d.id)
          (RedisVal.enc
            { d with createdAt := now, updatedAt := now, version := 1 }),
        { d with createdAt := now, updatedAt := now, version := 1 }) := rfl

theorem redisUpdate_eq_decodeFailure (mf : Bool) (cw : Option RedisVal)
    (st : RedisState) (d : SessionData) (now : Int)
    (hst : aget st (sessionKey d.id) = some RedisVal.garbage) :
    redisStore.Update false mf cw st d now
      = (Except.error StoreError.decodeFailure,
        applyConcurrent st (sessionKey d.id) cw, d) := by
  unfold redisStore.Update
  rw [hst]
  simp

/-- d0 is a sample session record with ID s1 and Version 1. -/
def d0 : SessionData :=
  { id := "s1", createdAt := 0, updatedAt := 0, version := 1,
    conversationHistory := [], systemPrompt := "", keyterms := [],
    language := "en", ttsEnabled := false, allowedOrigins := [],
    rateLimits := [], config := [] }

/-- d0v2 is d0 with Version 2 (a stale or ahead optimistic-lock token). -/
def d0v2 : SessionData := { d0 with version := 2 }

/-- memSt1 is an in-memory store state holding d0 under its ID. -/
def memSt1 : MemState := [("s1", d0)]

/-- redisSt1 is a Redis state holding the encoding of d0 under its session
key. -/
def redisSt1 : RedisState := [("session:s1", RedisVal.enc d0)]

/-- C1: Update requires the caller's Version to equal the stored Version — it
returns NotFound when no record exists for the ID and VersionConflict when the
stored Version differs, and on a match it increments the Version by exactly 1
and persists; n successful sequential read-modify-write rounds (each
re-fetching the latest record) after a Create leave the stored Version equal
to 1 + n. Stated for both backends; the Redis success and sequence conjuncts
are under a live context, no marshal failure and no concurrent writer. -/
theorem update_optimistic_locking_protocol :
    (∀ (c : Bool) (st : MemState) (d : SessionData) (now : Int),
        aget st d.id = none →
        (inMemoryStore.Update c st d now).1
          = Except.error StoreError.notFound) ∧
    (∀ (c : Bool) (st : MemState) (d s : SessionData) (now : Int),
        aget st d.id = some s → s.version ≠ d.version →
        (inMemoryStore.Update c st d now).1
          = Except.error StoreError.versionConflict) ∧
    (∀ (c : Bool) (st : MemState) (d s : SessionData) (now : Int),
        aget st d.id = some s → s.version = d.version →
        (inMemoryStore.Update c st d now).1 = Except.ok () ∧
        aget (inMemoryStore.Update c st d now).2.1 d.id
          = some { d with version := d.version + 1, updatedAt := now }) ∧
    (∀ (st : MemState) (d : SessionData) (now : Int) (n : Nat),
        ∃ st2 s2,
          seqMemUpdates n (inMemoryStore.Create false st d now).2.1 d.id
              = some st2 ∧
          aget st2 d.id = some s2 ∧ s2.version = 1 + (n : Int)) ∧
    (∀ (mf : Bool) (cw : Option RedisVal) (st : RedisState) (d : SessionData)
        (now : Int),
        aget st (sessionKey d.id) = none →
        (redisStore.Update false mf cw st d now).1
          = Except.error StoreError.notFound) ∧
    (∀ (mf : Bool) (cw : Option RedisVal) (st : RedisState)
        (d s : SessionData) (now : Int),
        aget st (sessionKey d.id) = some (RedisVal.enc s) →
        s.version ≠ d.version →
        (redisStore.Update false mf cw st d now).1
          = Except.error StoreError.versionConflict) ∧
    (∀ (st : RedisState) (d s : SessionData) (now : Int),
        aget st (sessionKey d.id) = some (RedisVal.enc s) →
        s.version = d.version →
        (redisStore.Update false false none st d now).1 = Except.ok () ∧
        aget (redisStore.Update false false none st d now).2.1
            (sessionKey d.id)
          = some (RedisVal.enc
              { d with version := d.version + 1, updatedAt := now })) ∧
    (∀ (st : RedisState) (d : SessionData) (now : Int) (n : Nat),
        ∃ st2 s2,
          seqRedisUpdates n (redisStore.Create false false st d now).2.1 d.id
              = some st2 ∧
          aget st2 (sessionKey d.id) = some (RedisVal.enc s2) ∧
          s2.version = 1 + (n : Int)) := by
  refine ⟨fun c st d now h => ?_, fun c st d s now h hv => ?_,
    fun c st d s now h hv => ?_, fun st d now n => ?_,
    fun mf cw st d now h => ?_, fun mf cw st d s now h hv => ?_,
    fun st d s now h hv => ?_, fun st d now n => ?_⟩
  · rw [memUpdate_eq_notFound c st d now h]
  · rw [memUpdate_eq_conflict c st d now s h hv]
  · rw [memUpdate_eq_of_match c st d now s h hv]
    exact ⟨rfl, aget_aset_self _ _ _⟩
  · obtain ⟨st2, s2, h1, h2, _, h4⟩ := seqMemUpdates_version n
      (inMemoryStore.Create false st d now).2.1 d.id
      { d with createdAt := now, updatedAt := now, version := 1 }
      (by rw [memCreate_eq]; exact aget_aset_self _ _ _) rfl
    refine ⟨st2, s2, h1, h2, ?_⟩
    rw [h4]
  · rw [redisUpdate_eq_notFound mf cw st d now h]
  · rw [redisUpdate_eq_conflict mf cw st d now s h hv]
  · rw [redisUpdate_eq_ok st d now s h hv]
    exact ⟨rfl, aget_aset_self _ _ _⟩
  · obtain ⟨st2, s2, h1, h2, _, h4⟩ := seqRedisUpdates_version n
      (redisStore.Create false false st d now).2.1 d.id
      { d with createdAt := now, updatedAt := now, version := 1 }
      (by rw [redisCreate_eq_ok]; exact aget_aset_self _ _ _) rfl
    refine ⟨st2, s2, h1, h2, ?_⟩
    rw [h4]

/-- C1 witness: concrete instances — NotFound on an empty store,
VersionConflict on a stale token, and success persisting version 2, for each
backend. -/
theorem update_protocol_witness :
    (inMemoryStore.Update false [] d0 5).1
        = Except.error StoreError.notFound ∧
    (inMemoryStore.Update false memSt1 d0v2 5).1
        = Except.error StoreError.versionConflict ∧
    ((inMemoryStore.Update false memSt1 d0 5).1 = Except.ok () ∧
      aget (inMemoryStore.Update false memSt1 d0 5).2.1 d0.id
        = some { d0 with version := d0.version + 1, updatedAt := 5 }) ∧
    (redisStore.Update false false none [] d0 5).1
        = Except.error StoreError.notFound ∧
    (redisStore.Update false false none redisSt1 d0v2 5).1
        = Except.error StoreError.versionConflict ∧
    ((redisStore.Update false false none redisSt1 d0 5).1 = Except.ok () ∧
      aget (redisStore.Update false false none redisSt1 d0 5).2.1
          (sessionKey d0.id)
        = some (RedisVal.enc
            { d0 with version := d0.version + 1, updatedAt := 5 })) :=
  ⟨update_optimistic_locking_protocol.1 false [] d0 5 (by decide),
   update_optimistic_locking_protocol.2.1 false memSt1 d0v2 d0 5 (by decide)
     (by decide),
   update_optimistic_locking_protocol.2.2.1 false memSt1 d0 d0 5 (by decide)
     (by decide),
   update_optimistic_locking_protocol.2.2.2.2.1 false none [] d0 5 (by decide),
   update_optimistic_locking_protocol.2.2.2.2.2.1 false none redisSt1 d0v2 d0
     5 (by decide) (by decide),
   update_optimistic_locking_protocol.2.2.2.2.2.2.1 redisSt1 d0 d0 5
     (by decide) (by decide)⟩

theorem applyConcurrent_none (st : RedisState) (key : String) :
    applyConcurrent st key none = st := rfl

theorem redisDelete_eq (st : RedisState) (id : String) :
    redisStore.Delete false st id
      = (Except.ok (), adel st (sessionKey id)) := rfl

theorem sessionKey_inj (a b : String) (h : sessionKey a = sessionKey b) :
    a = b := by
  unfold sessionKey at h
  have hd := congrArg String.data h
  rw [String.data_append, String.data_append] at hd
  have h2 := List.append_cancel_left hd
  cases a
  cases b
  simp only at h2
  rw [h2]

/-- applyRedisOp runs one operation (paired with its time) against the Redis
store under a live context, no marshal failure and no concurrent writer,
keeping the resulting database state. -/
def applyRedisOp (st : RedisState) : StoreOp × Int → RedisState
  | (StoreOp.create d, now) => (redisStore.Create false false st d now).2.1
  | (StoreOp.update d, now) =>
    (redisStore.Update false false none st d now).2.1
  | (StoreOp.delete id, _) => (redisStore.Delete false st id).2

/-- runRedisOps runs a sequence of timed operations left to right. -/
def runRedisOps : RedisState → List (StoreOp × Int) → RedisState
  | st, [] => st
  | st, p :: rest => runRedisOps (applyRedisOp st p) rest

theorem redisUpdate_ok (mf : Bool) (cw : Option RedisVal) (st : RedisState)
    (d : SessionData) (now : Int)
    (h : (redisStore.Update false mf cw st d now).1 = Except.ok ()) :
    ∃ stored, aget st (sessionKey d.id) = some (RedisVal.enc stored) ∧
      stored.version = d.version ∧
      (redisStore.Update false mf cw st d now).2.1
        = aset st (sessionKey d.id)
            (RedisVal.enc
              { d with version := d.version + 1, updatedAt := now }) := by
  cases hst : aget st (sessionKey d.id) with
  | none =>
    rw [redisUpdate_eq_notFound mf cw st d now hst] at h
    simp at h
  | some v =>
    cases v with
    | garbage =>
      rw [redisUpdate_eq_decodeFailure mf cw st d now hst] at h
      simp at h
    | enc stored =>
      by_cases hv : stored.version ≠ d.version
      · rw [redisUpdate_eq_conflict mf cw st d now stored hst hv] at h
        simp at h
      · have hv2 : stored.version = d.version := by omega
        cases mf with
        | true =>
          rw [redisUpdate_eq_marshalFailure cw st d now stored hst hv2] at h
          simp at h
        | false =>
          cases cw with
          | some w =>
            rw [redisUpdate_eq_txFailed w st d now stored hst hv2] at h
            simp at h
          | none =>
            refine ⟨stored, rfl, hv2, ?_⟩
            rw [redisUpdate_eq_ok st d now stored hst hv2]

theorem applyRedisOp_no_enc (st : RedisState) (p : StoreOp × Int)
    (id : String) (hnc : ¬ createsId id p.1)
    (h : ∀ x : SessionData,
      aget st (sessionKey id) ≠ some (RedisVal.enc x)) :
    ∀ x : SessionData,
      aget (applyRedisOp st p) (sessionKey id) ≠ some (RedisVal.enc x) := by
  obtain ⟨op, now⟩ := p
  cases op with
  | create d =>
    have hne : ¬ d.id = id := hnc
    intro x
    simp only [applyRedisOp, redisCreate_eq_ok]
    rw [aget_aset_ne _ _ _ _
      (fun he => hne (sessionKey_inj _ _ he).symm)]
    exact h x
  | update d =>
    intro x
    simp only [applyRedisOp]
    cases hst : aget st (sessionKey d.id) with
    | none =>
      simp only [redisUpdate_eq_notFound false none st d now hst,
        applyConcurrent_none]
      exact h x
    | some v =>
      cases v with
      | garbage =>
        simp only [redisUpdate_eq_decodeFailure false none st d now hst,
          applyConcurrent_none]
        exact h x
      | enc stored =>
        by_cases hv : stored.version ≠ d.version
        · simp only [redisUpdate_eq_conflict false none st d now stored hst hv,
            applyConcurrent_none]
          exact h x
        · have hv2 : stored.version = d.version := by omega
          simp only [redisUpdate_eq_ok st d now stored hst hv2]
          by_cases hk : sessionKey d.id = sessionKey id
          · exact absurd (hk ▸ hst) (h stored)
          · rw [aget_aset_ne _ _ _ _ (fun he => hk he.symm)]
            exact h x
  | delete did =>
    intro x
    simp only [applyRedisOp, redisDelete_eq]
    by_cases hk : sessionKey did = sessionKey id
    · rw [hk, aget_adel_self]
      simp
    · rw [aget_adel_ne _ _ _ (fun he => hk he.symm)]
      exact h x

theorem applyRedisOp_version_mono (st : RedisState) (p : StoreOp × Int)
    (id : String) (s s2 : SessionData) (hnc : ¬ createsId id p.1)
    (h : aget st (sessionKey id) = some (RedisVal.enc s))
    (h2 : aget (applyRedisOp st p) (sessionKey id)
      = some (RedisVal.enc s2)) :
    s.version ≤ s2.version := by
  obtain ⟨op, now⟩ := p
  cases op with
  | create d =>
    have hne : ¬ d.id = id := hnc
    simp only [applyRedisOp, redisCreate_eq_ok] at h2
    rw [aget_aset_ne _ _ _ _
      (fun he => hne (sessionKey_inj _ _ he).symm), h] at h2
    cases h2
    exact le_refl _
  | update d =>
    simp only [applyRedisOp] at h2
    cases hst : aget st (sessionKey d.id) with
    | none =>
      simp only [redisUpdate_eq_notFound false none st d now hst,
        applyConcurrent_none, h] at h2
      cases h2
      exact le_refl _
    | some v =>
      cases v with
      | garbage =>
        simp only [redisUpdate_eq_decodeFailure false none st d now hst,
          applyConcurrent_none, h] at h2
        cases h2
        exact le_refl _
      | enc stored =>
        by_cases hv : stored.version ≠ d.version
        · simp only [redisUpdate_eq_conflict false none st d now stored hst
            hv, applyConcurrent_none, h] at h2
          cases h2
          exact le_refl _
        · have hv2 : stored.version = d.version := by omega
          simp only [redisUpdate_eq_ok st d now stored hst hv2] at h2
          by_cases hk : sessionKey d.id = sessionKey id
          · rw [hk, aget_aset_self] at h2
            rw [hk] at hst
            rw [hst] at h
            cases h
            cases h2
            show s.version ≤ d.version + 1
            omega
          · rw [aget_aset_ne _ _ _ _ (fun he => hk he.symm), h] at h2
            cases h2
            exact le_refl _
  | delete did =>
    simp only [applyRedisOp, redisDelete_eq] at h2
    by_cases hk : sessionKey did = sessionKey id
    · rw [hk, aget_adel_self] at h2
      cases h2
    · rw [aget_adel_ne _ _ _ (fun he => hk he.symm), h] at h2
      cases h2
      exact le_refl _

theorem runRedisOps_no_enc (ops : List (StoreOp × Int)) :
    ∀ (st : RedisState) (id : String),
      (∀ p ∈ ops, ¬ createsId id p.1) →
      (∀ x : SessionData,
        aget st (sessionKey id) ≠ some (RedisVal.enc x)) →
      ∀ x : SessionData,
        aget (runRedisOps st ops) (sessionKey id)
          ≠ some (RedisVal.enc x) := by
  induction ops with
  | nil => intro st id _ h; exact h
  | cons p rest ih =>
    intro st id hnc h
    exact ih _ _ (fun q hq => hnc q (List.mem_cons_of_mem _ hq))
      (applyRedisOp_no_enc st p id (hnc p (List.mem_cons_self _ _)) h)

theorem runRedisOps_mono (ops : List (StoreOp × Int)) :
    ∀ (st : RedisState) (id : String) (s s2 : SessionData),
      (∀ p ∈ ops, ¬ createsId id p.1) →
      aget st (sessionKey id) = some (RedisVal.enc s) →
      aget (runRedisOps st ops) (sessionKey id)
        = some (RedisVal.enc s2) →
      s.version ≤ s2.version := by
  induction ops with
  | nil =>
    intro st id s s2 _ h h2
    simp only [runRedisOps] at h2
    rw [h] at h2
    cases h2
    exact le_refl _
  | cons p rest ih =>
    intro st id s s2 hnc h h2
    simp only [runRedisOps] at h2
    have hncp := hnc p (List.mem_cons_self _ _)
    have hncr : ∀ q ∈ rest, ¬ createsId id q.1 :=
      fun q hq => hnc q (List.mem_cons_of_mem _ hq)
    cases hmid : aget (applyRedisOp st p) (sessionKey id) with
    | none =>
      exact absurd h2 (runRedisOps_no_enc rest (applyRedisOp st p) id hncr
        (fun x => by rw [hmid]; simp) s2)
    | some v =>
      cases v with
      | garbage =>
        exact absurd h2 (runRedisOps_no_enc rest (applyRedisOp st p) id hncr
          (fun x => by rw [hmid]; simp) s2)
      | enc smid =>
        have hstep := applyRedisOp_version_mono st p id s smid hncp h hmid
        have htail := ih (applyRedisOp st p) id smid s2 hncr hmid h2
        omega

/-- C2 counterexample: Create has overwrite semantics and unconditionally
resets Version to 1, so the trace Create, successful Update (stored Version
becomes 2), Create again persists Version 1 for an ID whose record existed
throughout and previously carried Version 2 — the stored Version is not
monotonically increasing over arbitrary operation sequences. -/
theorem create_resets_version_counterexample :
    (aget (runMemOps []
        [(StoreOp.create d0, 0), (StoreOp.update d0, 1)]) "s1").map
        SessionData.version = some 2 ∧
    (aget (runMemOps []
        [(StoreOp.create d0, 0), (StoreOp.update d0, 1),
          (StoreOp.create d0, 2)]) "s1").map SessionData.version
      = some 1 := by
  exact ⟨by decide, by decide⟩

/-- C2 amended: the Version stored for an ID is monotonically increasing as
long as no further Create is issued for that ID, on both backends — every
successful Update persists exactly the stored Version plus 1 (strictly
greater), two back-to-back successful Updates on the same ID necessarily
observe distinct pre-update Versions (the second presents the first's Version
plus 1), and over any operation sequence containing no Create for the ID the
stored Version never decreases; Create, however, resets the Version to 1. The
Redis conjuncts run under a live context; its trace conjunct additionally
assumes no concurrent writer and no marshal failure, since a concurrent
writer's SET is another call's write and unconstrained. -/
theorem version_monotone_without_recreate :
    (∀ (c : Bool) (st : MemState) (d stored : SessionData) (now : Int),
        aget st d.id = some stored →
        (inMemoryStore.Update c st d now).1 = Except.ok () →
        ∃ s2, aget (inMemoryStore.Update c st d now).2.1 d.id = some s2 ∧
          s2.version = stored.version + 1 ∧ stored.version < s2.version) ∧
    (∀ (c : Bool) (st : MemState) (d1 d2 : SessionData) (now1 now2 : Int),
        (inMemoryStore.Update c st d1 now1).1 = Except.ok () →
        d2.id = d1.id →
        (inMemoryStore.Update c (inMemoryStore.Update c st d1 now1).2.1 d2
            now2).1 = Except.ok () →
        d2.version = d1.version + 1 ∧ d2.version ≠ d1.version) ∧
    (∀ (ops : List (StoreOp × Int)) (st : MemState) (id : String)
        (s s2 : SessionData),
        (∀ p ∈ ops, ¬ createsId id p.1) → aget st id = some s →
        aget (runMemOps st ops) id = some s2 → s.version ≤ s2.version) ∧
    (∀ (mf : Bool) (cw : Option RedisVal) (st : RedisState)
        (d stored : SessionData) (now : Int),
        aget st (sessionKey d.id) = some (RedisVal.enc stored) →
        (redisStore.Update false mf cw st d now).1 = Except.ok () →
        ∃ s2, aget (redisStore.Update false mf cw st d now).2.1
            (sessionKey d.id) = some (RedisVal.enc s2) ∧
          s2.version = stored.version + 1 ∧ stored.version < s2.version) ∧
    (∀ (mf1 mf2 : Bool) (cw1 cw2 : Option RedisVal) (st : RedisState)
        (d1 d2 : SessionData) (now1 now2 : Int),
        (redisStore.Update false mf1 cw1 st d1 now1).1 = Except.ok () →
        d2.id = d1.id →
        (redisStore.Update false mf2 cw2
            (redisStore.Update false mf1 cw1 st d1 now1).2.1 d2 now2).1
          = Except.ok () →
        d2.version = d1.version + 1 ∧ d2.version ≠ d1.version) ∧
    (∀ (ops : List (StoreOp × Int)) (st : RedisState) (id : String)
        (s s2 : SessionData),
        (∀ p ∈ ops, ¬ createsId id p.1) →
        aget st (sessionKey id) = some (RedisVal.enc s) →
        aget (runRedisOps st ops) (sessionKey id)
            = some (RedisVal.enc s2) →
        s.version ≤ s2.version) := by
  refine ⟨fun c st d stored now hget hok => ?_,
    fun c st d1 d2 now1 now2 h1 hid h2 => ?_,
    fun ops st id s s2 hnc h h2 => runMemOps_mono ops st id s s2 hnc h h2,
    fun mf cw st d stored now hget hok => ?_,
    fun mf1 mf2 cw1 cw2 st d1 d2 now1 now2 h1 hid h2 => ?_,
    fun ops st id s s2 hnc h h2 => runRedisOps_mono ops st id s s2 hnc h h2⟩
  · obtain ⟨stored2, hget2, hv, hstate⟩ := memUpdate_ok c st d now hok
    rw [hget] at hget2
    cases hget2
    refine ⟨{ d with version := d.version + 1, updatedAt := now }, ?_, ?_, ?_⟩
    · rw [hstate]
      exact aget_aset_self _ _ _
    · simp only []
      omega
    · simp only []
      omega
  · obtain ⟨s1, hget1, hv1, hstate1⟩ := memUpdate_ok c st d1 now1 h1
    obtain ⟨s2x, hget2, hv2, _⟩ := memUpdate_ok c _ d2 now2 h2
    rw [hstate1, hid, aget_aset_self] at hget2
    cases hget2
    simp only [] at hv2
    omega
  · obtain ⟨stored2, hget2, hv, hstate⟩ := redisUpdate_ok mf cw st d now hok
    rw [hget] at hget2
    cases hget2
    refine ⟨{ d with version := d.version + 1, updatedAt := now }, ?_, ?_, ?_⟩
    · rw [hstate]
      exact aget_aset_self _ _ _
    · simp only []
      omega
    · simp only []
      omega
  · obtain ⟨s1, hget1, hv1, hstate1⟩ := redisUpdate_ok mf1 cw1 st d1 now1 h1
    obtain ⟨s2x, hget2, hv2, _⟩ := redisUpdate_ok mf2 cw2 _ d2 now2 h2
    rw [hstate1] at hget2
    have hkey : sessionKey d2.id = sessionKey d1.id := by rw [hid]
    rw [hkey, aget_aset_self] at hget2
    cases hget2
    simp only [] at hv2
    omega

/-- C2 amended witness: concrete instances on each backend — a successful
Update persisting version 2 over stored version 1, back-to-back successful
Updates with pre-update versions 1 and then 2, and version non-decrease over
a trace that contains no Create. -/
theorem version_monotone_witness :
    (∃ s2, aget (inMemoryStore.Update false memSt1 d0 3).2.1 d0.id
        = some s2 ∧ s2.version = d0.version + 1 ∧ d0.version < s2.version) ∧
    (d0v2.version = d0.version + 1 ∧ d0v2.version ≠ d0.version) ∧
    d0.version ≤ d0.version ∧
    (∃ s2, aget (redisStore.Update false false none redisSt1 d0 3).2.1
        (sessionKey d0.id) = some (RedisVal.enc s2) ∧
      s2.version = d0.version + 1 ∧ d0.version < s2.version) ∧
    (d0v2.version = d0.version + 1 ∧ d0v2.version ≠ d0.version) ∧
    d0.version ≤ d0.version :=
  ⟨version_monotone_without_recreate.1 false memSt1 d0 d0 3 (by decide)
      (by decide),
   version_monotone_without_recreate.2.1 false memSt1 d0 d0v2 3 4 (by decide)
      (by decide) (by decide),
   version_monotone_without_recreate.2.2.1 [(StoreOp.update d0v2, 5)] memSt1
      "s1" d0 d0 (by decide) (by decide) (by decide),
   version_monotone_without_recreate.2.2.2.1 false none redisSt1 d0 d0 3
      (by decide) (by decide),
   version_monotone_without_recreate.2.2.2.2.1 false false none none redisSt1
      d0 d0v2 3 4 (by decide) (by decide) (by decide),
   version_monotone_without_recreate.2.2.2.2.2 [(StoreOp.update d0v2, 5)]
      redisSt1 "s1" d0 d0 (by decide) (by decide) (by decide)⟩

/-- C3: an Update failing with NotFound or VersionConflict leaves the store
state for the ID untouched by the call and hands the caller's data back
unchanged (Version and UpdatedAt not mutated), on both backends; for the
Redis backend the state after the call is exactly the concurrent
environment's contribution — the failing call itself wrote nothing. -/
theorem update_error_leaves_state_and_data :
    (∀ (c : Bool) (st : MemState) (d : SessionData) (now : Int),
        ((inMemoryStore.Update c st d now).1
            = Except.error StoreError.notFound ∨
         (inMemoryStore.Update c st d now).1
            = Except.error StoreError.versionConflict) →
        (inMemoryStore.Update c st d now).2.1 = st ∧
        (inMemoryStore.Update c st d now).2.2 = d) ∧
    (∀ (mf : Bool) (cw : Option RedisVal) (st : RedisState) (d : SessionData)
        (now : Int),
        ((redisStore.Update false mf cw st d now).1
            = Except.error StoreError.notFound ∨
         (redisStore.Update false mf cw st d now).1
            = Except.error StoreError.versionConflict) →
        (redisStore.Update false mf cw st d now).2.1
            = applyConcurrent st (sessionKey d.id) cw ∧
        (redisStore.Update false mf cw st d now).2.2 = d) := by
  constructor
  · intro c st d now h
    cases hst : aget st d.id with
    | none =>
      rw [memUpdate_eq_notFound c st d now hst]
      exact ⟨rfl, rfl⟩
    | some stored =>
      by_cases hv : stored.version ≠ d.version
      · rw [memUpdate_eq_conflict c st d now stored hst hv]
        exact ⟨rfl, rfl⟩
      · rw [memUpdate_eq_of_match c st d now stored hst (by omega)] at h
        rcases h with h | h <;> simp at h
  · intro mf cw st d now h
    cases hst : aget st (sessionKey d.id) with
    | none =>
      rw [redisUpdate_eq_notFound mf cw st d now hst]
      exact ⟨rfl, rfl⟩
    | some v =>
      cases v with
      | garbage =>
        rw [redisUpdate_eq_decodeFailure mf cw st d now hst] at h
        rcases h with h | h <;> simp at h
      | enc stored =>
        by_cases hv : stored.version ≠ d.version
        · rw [redisUpdate_eq_conflict mf cw st d now stored hst hv]
          exact ⟨rfl, rfl⟩
        · have hv2 : stored.version = d.version := by omega
          cases mf with
          | true =>
            rw [redisUpdate_eq_marshalFailure cw st d now stored hst hv2] at h
            rcases h with h | h <;> simp at h
          | false =>
            cases cw with
            | none =>
              rw [redisUpdate_eq_ok st d now stored hst hv2] at h
              rcases h with h | h <;> simp at h
            | some w =>
              rw [redisUpdate_eq_txFailed w st d now stored hst hv2] at h
              rcases h with h | h <;> simp at h

/-- C3 witness: concrete instances — a NotFound failure on the empty
in-memory store and a VersionConflict on the Redis store under a concurrent
writer, both leaving state and caller data untouched by the call. -/
theorem update_error_atomicity_witness :
    ((inMemoryStore.Update false [] d0 5).2.1 = ([] : MemState) ∧
      (inMemoryStore.Update false [] d0 5).2.2 = d0) ∧
    ((redisStore.Update false false (some RedisVal.garbage) redisSt1 d0v2
          5).2.1
        = applyConcurrent redisSt1 (sessionKey d0v2.id)
            (some RedisVal.garbage) ∧
      (redisStore.Update false false (some RedisVal.garbage) redisSt1 d0v2
          5).2.2 = d0v2) :=
  ⟨update_error_leaves_state_and_data.1 false [] d0 5 (Or.inl (by decide)),
   update_error_leaves_state_and_data.2 false (some RedisVal.garbage) redisSt1
     d0v2 5 (Or.inr (by decide))⟩

/-- C4: Create rejects nothing based on prior existence — on any store state,
including one already holding a record under the same ID, and for arbitrary
caller-supplied Version and timestamps, it persists the record with Version 1
and CreatedAt = UpdatedAt = now; it never returns NotFound or VersionConflict
(the in-memory Create always succeeds, the Redis Create can only fail with a
marshal or transport error); and a Get immediately after a successful Create
returns the record with Version 1 and CreatedAt = UpdatedAt. -/
theorem create_overwrites_and_forces_version_one :
    (∀ (c : Bool) (st : MemState) (d : SessionData) (now : Int),
        (inMemoryStore.Create c st d now).1 = Except.ok () ∧
        (inMemoryStore.Get c (inMemoryStore.Create c st d now).2.1 d.id).1
          = Except.ok
              (some { d with
                        createdAt := now, updatedAt := now, version := 1 })) ∧
    (∀ (c mf : Bool) (st : RedisState) (d : SessionData) (now : Int)
        (e : StoreError),
        (redisStore.Create c mf st d now).1 = Except.error e →
        e ≠ StoreError.notFound ∧ e ≠ StoreError.versionConflict) ∧
    (∀ (st : RedisState) (d : SessionData) (now : Int),
        (redisStore.Create false false st d now).1 = Except.ok () ∧
        (redisStore.Get false (redisStore.Create false false st d now).2.1
            d.id).1
          = Except.ok
              (some { d with
                        createdAt := now, updatedAt := now, version := 1 })) := by
  refine ⟨fun c st d now => ⟨rfl, ?_⟩, fun c mf st d now e h => ?_,
    fun st d now => ⟨rfl, ?_⟩⟩
  · rw [memGet_eq, memCreate_eq]
    show Except.ok (aget (aset st d.id _) d.id) = _
    rw [aget_aset_self]
  · cases mf with
    | true =>
      have h2 : StoreError.marshalFailure = e := by
        simpa [redisStore.Create] using h
      rw [← h2]
      exact ⟨by decide, by decide⟩
    | false =>
      cases c with
      | true =>
        have h2 : StoreError.ctxCanceled = e := by
          simpa [redisStore.Create] using h
        rw [← h2]
        exact ⟨by decide, by decide⟩
      | false =>
        rw [redisCreate_eq_ok st d now] at h
        simp at h
  · rw [redisCreate_eq_ok st d now,
      redisGet_eq_enc _ _ _ (aget_aset_self _ _ _)]

/-- C4 witness: the Redis Create with a failing marshal returns an error that
is neither NotFound nor VersionConflict, also on a state already holding the
ID; in-memory and Redis Create-then-Get on an occupied state yield Version 1
with CreatedAt = UpdatedAt. -/
theorem create_overwrite_witness :
    (StoreError.marshalFailure ≠ StoreError.notFound ∧
      StoreError.marshalFailure ≠ StoreError.versionConflict) ∧
    ((inMemoryStore.Create false memSt1 d0v2 7).1 = Except.ok () ∧
      (inMemoryStore.Get false
          (inMemoryStore.Create false memSt1 d0v2 7).2.1 d0v2.id).1
        = Except.ok
            (some { d0v2 with
                      createdAt := 7, updatedAt := 7, version := 1 })) ∧
    ((redisStore.Create false false redisSt1 d0v2 7).1 = Except.ok () ∧
      (redisStore.Get false
          (redisStore.Create false false redisSt1 d0v2 7).2.1 d0v2.id).1
        = Except.ok
            (some { d0v2 with
                      createdAt := 7, updatedAt := 7, version := 1 })) :=
  ⟨create_overwrites_and_forces_version_one.2.1 false true redisSt1 d0v2 7
      StoreError.marshalFailure (by decide),
   create_overwrites_and_forces_version_one.1 false memSt1 d0v2 7,
   create_overwrites_and_forces_version_one.2.2 redisSt1 d0v2 7⟩

/-- C5 counterexample: the in-memory backend never inspects its context —
Update invoked with an already-cancelled context completes its effect
(persisting version 2) and reports success instead of returning an error
reflecting the cancellation. -/
theorem inMemory_completes_under_cancelled_context :
    (inMemoryStore.Update true memSt1 d0 5).1 = Except.ok () ∧
    aget (inMemoryStore.Update true memSt1 d0 5).2.1 "s1"
      = some { d0 with version := 2, updatedAt := 5 } := by
  exact ⟨by decide, by decide⟩

/-- C5 amended: only the Redis backend honours cancellation — it relays the
caller's context to its client calls, so with an already-cancelled context
every Redis operation returns a cancellation error and leaves the database
unwritten (this transport behaviour of the go-redis collaborator is modelled
from the spec); the in-memory backend ignores the context entirely: each of
its operations behaves identically under a live and a cancelled context,
completing its effect. -/
theorem cancelled_context_behaviour :
    (∀ (st : RedisState) (d : SessionData) (now : Int),
        (redisStore.Create true false st d now).1
            = Except.error StoreError.ctxCanceled ∧
        (redisStore.Create true false st d now).2.1 = st) ∧
    (∀ (st : RedisState) (id : String),
        (redisStore.Get true st id).1 = Except.error StoreError.ctxCanceled ∧
        (redisStore.Get true st id).2 = st) ∧
    (∀ (mf : Bool) (cw : Option RedisVal) (st : RedisState) (d : SessionData)
        (now : Int),
        (redisStore.Update true mf cw st d now).1
            = Except.error StoreError.ctxCanceled ∧
        (redisStore.Update true mf cw st d now).2.1 = st) ∧
    (∀ (st : RedisState) (id : String),
        (redisStore.Delete true st id).1
            = Except.error StoreError.ctxCanceled ∧
        (redisStore.Delete true st id).2 = st) ∧
    (∀ (c : Bool) (st : MemState) (d : SessionData) (now : Int) (id : String),
        inMemoryStore.Create c st d now = inMemoryStore.Create false st d now ∧
        inMemoryStore.Get c st id = inMemoryStore.Get false st id ∧
        inMemoryStore.Update c st d now
            = inMemoryStore.Update false st d now ∧
        inMemoryStore.Delete c st id = inMemoryStore.Delete false st id) :=
  ⟨fun st d now => ⟨rfl, rfl⟩,
   fun st id => ⟨rfl, rfl⟩,
   fun mf cw st d now => ⟨rfl, rfl⟩,
   fun st id => ⟨rfl, rfl⟩,
   fun c st d now id => ⟨rfl, rfl, rfl, rfl⟩⟩

/-- C10: on the Redis backend, when Update fails after the version check has
passed — the marshal of the new value fails, or the watched key was
concurrently modified so the transaction commit is rejected — the error is
returned but the caller's struct has already had Version incremented and
UpdatedAt overwritten; in the marshal case the stored value is untouched, so
resubmitting the mutated struct without a fresh Get presents a Version one
ahead of the stored one and fails with VersionConflict. -/
theorem redis_update_mutates_data_on_late_failure :
    (∀ (cw : Option RedisVal) (st : RedisState) (d s : SessionData)
        (now : Int),
        aget st (sessionKey d.id) = some (RedisVal.enc s) →
        s.version = d.version →
        (redisStore.Update false true cw st d now).1
            = Except.error StoreError.marshalFailure ∧
        (redisStore.Update false true cw st d now).2.2
            = { d with version := d.version + 1, updatedAt := now }) ∧
    (∀ (w : RedisVal) (st : RedisState) (d s : SessionData) (now : Int),
        aget st (sessionKey d.id) = some (RedisVal.enc s) →
        s.version = d.version →
        (redisStore.Update false false (some w) st d now).1
            = Except.error StoreError.txFailed ∧
        (redisStore.Update false false (some w) st d now).2.2
            = { d with version := d.version + 1, updatedAt := now }) ∧
    (∀ (st : RedisState) (d s : SessionData) (now now2 : Int),
        aget st (sessionKey d.id) = some (RedisVal.enc s) →
        s.version = d.version →
        (redisStore.Update false true none st d now).2.1 = st ∧
        (redisStore.Update false false none st
            (redisStore.Update false true none st d now).2.2 now2).1
          = Except.error StoreError.versionConflict) := by
  refine ⟨fun cw st d s now hget hv => ?_, fun w st d s now hget hv => ?_,
    fun st d s now now2 hget hv => ?_⟩
  · rw [redisUpdate_eq_marshalFailure cw st d now s hget hv]
    exact ⟨rfl, rfl⟩
  · rw [redisUpdate_eq_txFailed w st d now s hget hv]
    exact ⟨rfl, rfl⟩
  · rw [redisUpdate_eq_marshalFailure none st d now s hget hv]
    refine ⟨rfl, ?_⟩
    rw [redisUpdate_eq_conflict false none st
      { d with version := d.version + 1, updatedAt := now } now2 s hget
      (by simp only []; omega)]

/-- C10 witness: a concrete marshal failure and a concrete rejected
transaction after a passing version check, each leaving the caller's struct
with Version 2 and UpdatedAt 9, and the resubmission of the mutated struct
failing with VersionConflict. -/
theorem redis_late_failure_witness :
    ((redisStore.Update false true none redisSt1 d0 9).1
        = Except.error StoreError.marshalFailure ∧
      (redisStore.Update false true none redisSt1 d0 9).2.2
        = { d0 with version := d0.version + 1, updatedAt := 9 }) ∧
    ((redisStore.Update false false (some RedisVal.garbage) redisSt1 d0 9).1
        = Except.error StoreError.txFailed ∧
      (redisStore.Update false false (some RedisVal.garbage) redisSt1 d0
          9).2.2
        = { d0 with version := d0.version + 1, updatedAt := 9 }) ∧
    ((redisStore.Update false true none redisSt1 d0 9).2.1 = redisSt1 ∧
      (redisStore.Update false false none redisSt1
          (redisStore.Update false true none redisSt1 d0 9).2.2 11).1
        = Except.error StoreError.versionConflict) :=
  ⟨redis_update_mutates_data_on_late_failure.1 none redisSt1 d0 d0 9
      (by decide) (by decide),
   redis_update_mutates_data_on_late_failure.2.1 RedisVal.garbage redisSt1 d0
      d0 9 (by decide) (by decide),
   redis_update_mutates_data_on_late_failure.2.2 redisSt1 d0 d0 9 11
      (by decide) (by decide)⟩
